import Mathlib

/-!
Verification of the hospital-dashboard PDF export pipeline
(`scripts/main.py` and `scripts/validate.py`).

Python strings are modelled as `List Char`.  The Unicode NFKC
normalization performed by `unicodedata.normalize("NFKC", ·)` is an
external library primitive; functions that call it take it as an
explicit parameter `nfkc : List Char → List Char`, and theorems that
need its Unicode-standard properties (idempotence, stability of
normalization under whitespace collapsing) take them as hypotheses.
-/

set_option maxHeartbeats 1000000

namespace Dashboards

/-- Whitespace class acted on by the `str.strip` / `str.split` calls in
the scripts (ASCII whitespace; the wider Unicode whitespace characters
never occur in the facility names handled here). -/
def isWs (c : Char) : Bool :=
  c = ' ' || c = '\t' || c = '\n' || c = '\r' || c = '\x0b' || c = '\x0c'

/-- Leading-whitespace removal (the left half of Python `s.strip()`). -/
def lstrip (l : List Char) : List Char := l.dropWhile isWs

/-- Trailing-whitespace removal (the right half of Python `s.strip()`). -/
def rstrip (l : List Char) : List Char := (l.reverse.dropWhile isWs).reverse

/-- Python `s.strip()`. -/
def strip (l : List Char) : List Char := rstrip (lstrip l)

/-- Fuelled splitter behind `words`; the fuel (an upper bound on the
list length) only makes the recursion structural. -/
def wordsF : Nat → List Char → List (List Char)
  | 0, _ => []
  | _ + 1, [] => []
  | fuel + 1, c :: cs =>
    if isWs c then wordsF fuel cs
    else (c :: cs.takeWhile (fun x => !isWs x)) :: wordsF fuel (cs.dropWhile (fun x => !isWs x))

/-- Python `s.split()`: the maximal runs of non-whitespace characters,
in order; whitespace runs are discarded. -/
def words (l : List Char) : List (List Char) := wordsF l.length l

/-- Python `" ".join(ws)`. -/
def unwords : List (List Char) → List Char
  | [] => []
  | [w] => w
  | w :: ws => w ++ ' ' :: unwords ws

/-- Python `" ".join(l.strip().split())`: canonicalize whitespace. -/
def collapseWs (l : List Char) : List Char := unwords (words (strip l))

/-- The function `normalize_text` of `scripts/main.py` line 73:
`" ".join(unicodedata.normalize("NFKC", s).strip().split())`.
The NFKC pass is the parameter `nfkc`. -/
def normalize_text (nfkc : List Char → List Char) (s : List Char) : List Char :=
  collapseWs (nfkc s)

/-- A word list is good when every word is nonempty and whitespace-free;
`words` only produces good word lists. -/
def goodWords (ws : List (List Char)) : Prop :=
  ∀ w ∈ ws, w ≠ [] ∧ ∀ c ∈ w, isWs c = false

/-! Facility selector (`select_first_search_result`, `scripts/main.py`
lines 80-168).  The browser frame is replaced by the observations the
function makes through it. -/

/-- Observations the selector makes through the browser frame while
handling one facility name: whether each of the two dropdown-open
attempts succeeds (lines 85-94), whether filling and submitting the
search bar succeeds (lines 97-103), whether the wait for rendered
items succeeds (lines 109-115), the stripped label read from each
rendered item in display order (`none` when reading that label raises,
which the matching loops skip, lines 122-129), and the dropdown
restatement text read back after closing (`none` when that read
raises, lines 160-168). -/
structure FrameObs where
  openAttempt1 : Bool
  openAttempt2 : Bool
  searchOk : Bool
  itemsLoaded : Bool
  labels : List (Option (List Char))
  closedDisplay : Option (List Char)
deriving DecidableEq

/-- The distinct exceptions `select_first_search_result` can raise. -/
inductive SelectError
  | dropdownOpenFailed
  | searchInputError
  | dropdownWaitError
  | noExactMatch
  | postReadError
  | postSelectionMismatch
deriving DecidableEq

/-- One matching pass of the item loop (lines 120-129 / 133-142): walk
the rendered items in display order, skip an item whose label read
raised, click the first item whose stripped label satisfies `pred` and
stop there; the result is the clicked display index. -/
def scanClick (pred : List Char → Bool) : List (Option (List Char)) → Option Nat
  | [] => none
  | none :: rest => (scanClick pred rest).map (· + 1)
  | some t :: rest =>
    if pred (strip t) then some 0 else (scanClick pred rest).map (· + 1)

/-- First-pass match test (line 124): normalized label equals
normalized target. -/
def normMatches (nfkc : List Char → List Char) (hospital t : List Char) : Bool :=
  normalize_text nfkc t == normalize_text nfkc hospital

/-- Second-pass match test (line 137): raw stripped label equals the
target. -/
def rawMatches (hospital t : List Char) : Bool := t == hospital

/-- Display index of the item clicked by the two matching passes of
`select_first_search_result` (lines 117-142): the normalized pass wins
when it finds anything, otherwise the raw pass runs. -/
def selectClicked (nfkc : List Char → List Char) (labels : List (Option (List Char)))
    (hospital : List Char) : Option Nat :=
  match scanClick (normMatches nfkc hospital) labels with
  | some i => some i
  | none => scanClick (rawMatches hospital) labels

/-- Outcome of `select_first_search_result` (lines 80-168) for given
frame observations: each `raise` becomes the corresponding
`SelectError`; reaching line 166 without raising is `ok`. -/
def select_first_search_result (nfkc : List Char → List Char) (obs : FrameObs)
    (hospital : List Char) : Except SelectError Unit :=
  if !(obs.openAttempt1 || obs.openAttempt2) then .error .dropdownOpenFailed
  else if !obs.searchOk then .error .searchInputError
  else if !obs.itemsLoaded || obs.labels.isEmpty then .error .dropdownWaitError
  else
    match selectClicked nfkc obs.labels hospital with
    | none => .error .noExactMatch
    | some _ =>
      match obs.closedDisplay with
      | none => .error .postReadError
      | some sel =>
        if normalize_text nfkc (strip sel) == normalize_text nfkc hospital
        then .ok () else .error .postSelectionMismatch

/-- The dropdown label "Saint Mary Hospital" of the spec's selector example. -/
def stMaryPlain : List Char := "Saint Mary Hospital".toList

/-- The dropdown label for the Saint Mary facility whose name carries an
apostrophe (codepoint 39) before the final "s". -/
def stMaryApos : List Char :=
  "Saint Mary".toList ++ [Char.ofNat 39] ++ "s Hospital".toList

/-! Worker loop (`worker_task`, `scripts/main.py` lines 173-225). -/

/-- Environment one worker runs against: whether the Playwright /
browser / page setup up to locating the frame succeeds (lines 183-196),
the frame observations made while selecting each name, whether the
`page.pdf` call for each name succeeds (line 212), and whether the
`browser.close()` call after the loop succeeds (line 220). -/
structure WorkerEnv where
  sessionOk : Bool
  obs : List Char → FrameObs
  exportOk : List Char → Bool
  closeOk : Bool

/-- One iteration of the per-hospital loop (lines 199-218): a selection
failure or a PDF-write failure appends the name to the failed list and
the loop continues; a successful `page.pdf` call records the written
file.  The accumulator carries (failed names, names whose PDF was
written). -/
def workerStep (nfkc : List Char → List Char) (env : WorkerEnv)
    (acc : List (List Char) × List (List Char)) (h : List Char) :
    List (List Char) × List (List Char) :=
  match select_first_search_result nfkc (env.obs h) h with
  | .error _ => (acc.1 ++ [h], acc.2)
  | .ok _ => if env.exportOk h then (acc.1, acc.2 ++ [h]) else (acc.1 ++ [h], acc.2)

/-- The function `worker_task` (lines 173-225).  First component: the
failed list the function returns; second component: the trace of names
whose PDF write succeeded (an effect on disk, not part of the return
value).  When session setup fails, the whole subset is returned failed
with nothing written (line 223); when `browser.close()` raises after
the loop, the same outer handler also returns the whole subset,
discarding the per-name failed list, while the PDFs already written
remain on disk. -/
def worker_task (nfkc : List Char → List Char) (env : WorkerEnv)
    (subset : List (List Char)) : List (List Char) × List (List Char) :=
  if env.sessionOk = false then (subset, [])
  else
    let r := subset.foldl (workerStep nfkc env) ([], [])
    if env.closeOk then r else (subset, r.2)

/-- A concrete facility name for witnesses. -/
def genHosp : List Char := "General Hospital".toList

/-- A concrete wrong dropdown restatement for witnesses. -/
def otherHosp : List Char := "Other Hospital".toList

/-- Frame observations in which the click lands but the closed dropdown
shows a different facility. -/
def obsW : FrameObs :=
  { openAttempt1 := true, openAttempt2 := true, searchOk := true, itemsLoaded := true,
    labels := [some genHosp], closedDisplay := some otherHosp }

/-- Worker environment built on `obsW` with working session, export and
teardown. -/
def envW : WorkerEnv :=
  { sessionOk := true, obs := fun _ => obsW, exportOk := fun _ => true, closeOk := true }

/-! Filenames: export side (`scripts/main.py` lines 180, 204-206) and
reconciliation side (`scripts/validate.py` lines 11-14, 23, 26-29). -/

/-- The character class of the substitution regex used on filenames in
both scripts: backslash, slash, star, question mark, colon, double
quote, angle brackets and pipe. -/
def illegalChar (c : Char) : Bool :=
  c = '\\' || c = '/' || c = '*' || c = '?' || c = ':' || c = '"' ||
    c = '<' || c = '>' || c = '|'

/-- The substitution `re.sub` of each illegal character by an
underscore (main.py line 204, validate.py line 12). -/
def sanitizeName (name : List Char) : List Char :=
  name.map (fun c => if illegalChar c then '_' else c)

/-- main.py line 180: `run_timestamp.split("_")[0]`, the date half of
the run timestamp. -/
def dateOf (ts : List Char) : List Char := ts.takeWhile (fun c => c ≠ '_')

/-- main.py lines 204-205: the PDF filename written by the export step,
`SB_Report_{date_for_filename}_{safe_name}.pdf`. -/
def export_pdf_name (run_timestamp hospital : List Char) : List Char :=
  "SB_Report_".toList ++ dateOf run_timestamp ++ "_".toList ++
    sanitizeName hospital ++ ".pdf".toList

/-- validate.py lines 11-14 `normalize`: substitute illegal filename
characters, then collapse whitespace. -/
def validateNormalize (name : List Char) : List Char :=
  collapseWs (sanitizeName name)

/-- validate.py lines 26-29: the filename the reconciliation check
expects for a hospital, `SB_Report_{normalize(h)}_{runstamp}.pdf`, with
`runstamp` the full timestamp recovered from the directory name. -/
def expected_pdf_name (runstamp hospital : List Char) : List Char :=
  "SB_Report_".toList ++ validateNormalize hospital ++ "_".toList ++
    runstamp ++ ".pdf".toList

/-! Partitioning across workers (`scripts/main.py` lines 269-270). -/

/-- math.ceil(n / W) as computed on line 269 (`split_size`). -/
def splitSize (n W : Nat) : Nat := (n + W - 1) / W

/-- Fuelled chunker behind `chunked`; the fuel (an upper bound on the
list length) only makes the recursion structural. -/
def chunkedF {α : Type} (k : Nat) : Nat → List α → List (List α)
  | 0, _ => []
  | _ + 1, [] => []
  | fuel + 1, l => l.take k :: chunkedF k fuel (l.drop k)

/-- Line 270: `[hospitals[i:i + split_size] for i in range(0, len(hospitals), split_size)]`,
the consecutive slices of width `k`. -/
def chunked {α : Type} (k : Nat) (l : List α) : List (List α) :=
  chunkedF k l.length l

/-- The spec's end-to-end partitioning example, three names. -/
def threeHospitals : List (List Char) :=
  ["A Hospital".toList, "B Hospital".toList, "C Hospital".toList]

/-- Frame observations in which selection fully succeeds for
`genHosp`: the single label and the closed restatement both read back
as the target. -/
def obsGood : FrameObs :=
  { openAttempt1 := true, openAttempt2 := true, searchOk := true, itemsLoaded := true,
    labels := [some genHosp], closedDisplay := some genHosp }

/-- Worker environment whose session, selection and export all work but
whose `browser.close()` raises after the loop. -/
def envCloseFail : WorkerEnv :=
  { sessionOk := true, obs := fun _ => obsGood, exportOk := fun _ => true, closeOk := false }

/-! Retry-loop orchestrator (`scripts/main.py` lines 241-290). -/

/-- State of the `while True` retry loop: the attempt counter, the
hospital list the pass reads (pass 1 reads the base CSV, later passes
read the failed list written by the previous pass), the captured run
timestamp (`None` before line 264 runs), how many times the output
directory has been created (line 266), and whether the loop has hit a
`break`. -/
structure OrchState where
  attempt : Nat
  input : List (List Char)
  runId : Option (List Char)
  dirCreated : Nat
  stopped : Bool
deriving DecidableEq

/-- One iteration of the retry loop (lines 246-290), parameterized by
the timestamp `ts` the clock gives when line 264 runs and by
`runFail`, the merged failed list the pool of workers returns for a
given pass number and input list: an empty input breaks out (line
260); attempt 1 captures the timestamp and creates the output
directory (lines 263-266); a pass with failures writes them as the
next input and increments the attempt (lines 281-287); a pass with
none breaks out (line 290). -/
def orchStep (ts : List Char) (runFail : Nat → List (List Char) → List (List Char))
    (s : OrchState) : OrchState :=
  if s.stopped then s
  else if s.input.isEmpty then { s with stopped := true }
  else
    let s1 := if s.attempt = 1 then { s with runId := some ts, dirCreated := s.dirCreated + 1 }
      else s
    let failed := runFail s.attempt s.input
    if failed.isEmpty then { s1 with stopped := true }
    else { s1 with attempt := s1.attempt + 1, input := failed }

/-- Loop state on entry (lines 241-243). -/
def orchInit (base : List (List Char)) : OrchState :=
  { attempt := 1, input := base, runId := none, dirCreated := 0, stopped := false }

/-- Loop state after `n` iterations of the retry loop. -/
def orchRun (ts : List Char) (runFail : Nat → List (List Char) → List (List Char))
    (base : List (List Char)) : Nat → OrchState
  | 0 => orchInit base
  | n + 1 => orchStep ts runFail (orchRun ts runFail base n)

/-- A failure behaviour in which every name fails on every pass. -/
def alwaysFail : Nat → List (List Char) → List (List Char) := fun _ l => l

/-- A concrete run timestamp for witnesses. -/
def tsW : List Char := "20250723_153139".toList

/-! Reconciliation (`scripts/validate.py`). -/

/-- The name of the missing-list CSV the script writes into the output
directory (line 8 / lines 40-43). -/
def missingCsvName : List Char := "missing_pdfs.csv".toList

/-- validate.py line 32: the directory entries whose lowercased name
ends in ".pdf". -/
def actual_pdf_files (dir : List (List Char)) : List (List Char) :=
  dir.filter (fun f => ".pdf".toList.isSuffixOf (f.map Char.toLower))

/-- One Python-dict insertion keyed by expected filename: a repeated
key keeps its first position and takes the latest value. -/
def insertKV (m : List (List Char × List Char)) (k v : List Char) :
    List (List Char × List Char) :=
  if m.any (fun p => p.1 == k) then m.map (fun p => if p.1 == k then (p.1, v) else p)
  else m ++ [(k, v)]

/-- validate.py lines 26-29: the dict from expected PDF filename to
hospital name, in hospital order. -/
def expected_pdf_names (runstamp : List Char) (hospitals : List (List Char)) :
    List (List Char × List Char) :=
  hospitals.foldl (fun m h => insertKV m (expected_pdf_name runstamp h) h) []

/-- validate.py line 33: the hospitals whose expected filename is
absent from the directory's PDF set. -/
def missing_pdfs (dir : List (List Char)) (runstamp : List Char)
    (hospitals : List (List Char)) : List (List Char) :=
  ((expected_pdf_names runstamp hospitals).filter
    (fun p => !(actual_pdf_files dir).contains p.1)).map Prod.snd

/-- The observable effect of one run of validate.py: the missing list
it computes, and the directory contents after it runs — it writes
`missing_pdfs.csv` into the output directory whenever the missing list
is nonempty (lines 40-43). -/
def runValidate (dir : List (List Char)) (runstamp : List Char)
    (hospitals : List (List Char)) : List (List Char) × List (List Char) :=
  let missing := missing_pdfs dir runstamp hospitals
  (missing, if missing.isEmpty then dir else dir ++ [missingCsvName])

theorem length_dropWhile_le (p : Char → Bool) (l : List Char) :
    (l.dropWhile p).length ≤ l.length := by
  induction l with
  | nil => simp [List.dropWhile]
  | cons a t ih =>
      rw [List.dropWhile_cons]
      by_cases hp : p a = true
      · simp only [hp, if_true, List.length_cons]
        omega
      · simp [hp]

theorem wordsF_nil (fuel : Nat) : wordsF fuel [] = [] := by
  cases fuel <;> rfl

theorem wordsF_congr : ∀ {f1 : Nat} {l : List Char} {f2 : Nat},
    l.length ≤ f1 → l.length ≤ f2 → wordsF f1 l = wordsF f2 l := by
  intro f1
  induction f1 with
  | zero =>
      intro l f2 h1 _
      have hl : l = [] := List.length_eq_zero.mp (Nat.le_zero.mp h1)
      subst hl
      rw [wordsF_nil, wordsF_nil]
  | succ n ih =>
      intro l f2 h1 h2
      cases l with
      | nil => rw [wordsF_nil, wordsF_nil]
      | cons c cs =>
          cases f2 with
          | zero => simp at h2
          | succ m =>
              rw [wordsF, wordsF]
              have hn : cs.length ≤ n := by simpa using h1
              have hm : cs.length ≤ m := by simpa using h2
              by_cases hc : isWs c = true
              · rw [if_pos hc, if_pos hc, ih hn hm]
              · have hd := length_dropWhile_le (fun x => !isWs x) cs
                rw [if_neg hc, if_neg hc, ih (le_trans hd hn) (le_trans hd hm)]

theorem wordsF_fuel (fuel : Nat) (l : List Char) (h : l.length ≤ fuel) :
    wordsF fuel l = words l :=
  wordsF_congr h le_rfl

theorem words_nil : words [] = [] := rfl

theorem words_cons (c : Char) (cs : List Char) :
    words (c :: cs) =
      if isWs c then words cs
      else (c :: cs.takeWhile (fun x => !isWs x)) :: words (cs.dropWhile (fun x => !isWs x)) := by
  show wordsF (cs.length + 1) (c :: cs) = _
  rw [wordsF]
  by_cases hc : isWs c = true
  · rw [if_pos hc, if_pos hc, wordsF_fuel cs.length cs le_rfl]
  · rw [if_neg hc, if_neg hc,
      wordsF_fuel cs.length _ (length_dropWhile_le (fun x => !isWs x) cs)]

/-! Helper lemmas about `takeWhile` / `dropWhile` on character lists. -/

theorem takeWhile_of_all {p : Char → Bool} {l : List Char}
    (h : ∀ c ∈ l, p c = true) : l.takeWhile p = l := by
  induction l with
  | nil => rfl
  | cons a t ih =>
      have ha : p a = true := h a (List.mem_cons_self a t)
      have ht : t.takeWhile p = t := ih (fun c hc => h c (List.mem_cons_of_mem a hc))
      simp [List.takeWhile_cons, ha, ht]

theorem dropWhile_of_all {p : Char → Bool} {l : List Char}
    (h : ∀ c ∈ l, p c = true) : l.dropWhile p = [] := by
  induction l with
  | nil => rfl
  | cons a t ih =>
      have ha : p a = true := h a (List.mem_cons_self a t)
      have ht : t.dropWhile p = [] := ih (fun c hc => h c (List.mem_cons_of_mem a hc))
      simp [List.dropWhile_cons, ha, ht]

theorem takeWhile_append_stop {p : Char → Bool} {w t : List Char} {a : Char}
    (h1 : ∀ c ∈ w, p c = true) (h2 : p a = false) :
    (w ++ a :: t).takeWhile p = w := by
  induction w with
  | nil => simp [List.takeWhile_cons, h2]
  | cons b bs ih =>
      have hb : p b = true := h1 b (List.mem_cons_self b bs)
      have hbs := ih (fun c hc => h1 c (List.mem_cons_of_mem b hc))
      simp [List.takeWhile_cons, hb, hbs]

theorem dropWhile_append_stop {p : Char → Bool} {w t : List Char} {a : Char}
    (h1 : ∀ c ∈ w, p c = true) (h2 : p a = false) :
    (w ++ a :: t).dropWhile p = a :: t := by
  induction w with
  | nil => simp [List.dropWhile_cons, h2]
  | cons b bs ih =>
      have hb : p b = true := h1 b (List.mem_cons_self b bs)
      have hbs := ih (fun c hc => h1 c (List.mem_cons_of_mem b hc))
      simp [List.dropWhile_cons, hb, hbs]

theorem words_good : ∀ l : List Char, goodWords (words l) := by
  have H : ∀ (n : Nat) (l : List Char), l.length ≤ n → goodWords (words l) := by
    intro n
    induction n with
    | zero =>
        intro l hl
        have hln : l = [] := List.length_eq_zero.mp (Nat.le_zero.mp hl)
        subst hln
        intro w hw
        simp [words_nil] at hw
    | succ n ih =>
        intro l hl
        cases l with
        | nil => intro w hw; simp [words_nil] at hw
        | cons c cs =>
            have hn : cs.length ≤ n := by simpa using hl
            by_cases hc : isWs c = true
            · rw [words_cons, if_pos hc]
              exact ih cs hn
            · rw [words_cons, if_neg hc]
              intro w hw
              rcases List.mem_cons.mp hw with h | h
              · subst h
                refine ⟨by simp, ?_⟩
                intro d hd
                rcases List.mem_cons.mp hd with h | h
                · subst h
                  simpa using hc
                · have h2 := List.mem_takeWhile_imp h
                  simpa using h2
              · exact ih _ (le_trans (length_dropWhile_le _ cs) hn) w h
  intro l
  exact H l.length l le_rfl

theorem unwords_cons_cons (w w2 : List Char) (ws : List (List Char)) :
    unwords (w :: w2 :: ws) = w ++ ' ' :: unwords (w2 :: ws) := rfl

theorem rstrip_append_last {l : List Char} {c : Char} (hc : isWs c = false) :
    rstrip (l ++ [c]) = l ++ [c] := by
  simp [rstrip, List.dropWhile_cons, hc]

/-- The join of a good, nonempty word list ends in a non-whitespace character. -/
theorem unwords_last (ws : List (List Char)) (hg : goodWords ws) (hne : ws ≠ []) :
    ∃ l c, unwords ws = l ++ [c] ∧ isWs c = false := by
  induction ws with
  | nil => exact absurd rfl hne
  | cons w rest ih =>
      cases rest with
      | nil =>
          obtain ⟨hwne, hwc⟩ := hg w (List.mem_cons_self w [])
          refine ⟨w.dropLast, w.getLast hwne, ?_, hwc _ (List.getLast_mem hwne)⟩
          have h1 : unwords [w] = w := rfl
          rw [h1, List.dropLast_append_getLast hwne]
      | cons w2 rest2 =>
          have hg2 : goodWords (w2 :: rest2) := by
            intro u hu
            exact hg u (List.mem_cons_of_mem w hu)
          obtain ⟨l, c, hu, hc⟩ := ih hg2 (by simp)
          refine ⟨w ++ ' ' :: l, c, ?_, hc⟩
          rw [unwords_cons_cons, hu]
          simp

/-- The join of a good, nonempty word list starts with a non-whitespace character. -/
theorem unwords_head (ws : List (List Char)) (hg : goodWords ws) (hne : ws ≠ []) :
    ∃ c t, unwords ws = c :: t ∧ isWs c = false := by
  cases ws with
  | nil => exact absurd rfl hne
  | cons w rest =>
      obtain ⟨hwne, hwc⟩ := hg w (List.mem_cons_self w rest)
      obtain ⟨c, cs, rfl⟩ := List.exists_cons_of_ne_nil hwne
      have hc : isWs c = false := hwc c (List.mem_cons_self c cs)
      cases rest with
      | nil => exact ⟨c, cs, by simp [unwords], hc⟩
      | cons w2 rest2 => exact ⟨c, cs ++ ' ' :: unwords (w2 :: rest2), by simp [unwords_cons_cons], hc⟩

/-- Stripping the join of a good word list is the identity. -/
theorem strip_unwords (ws : List (List Char)) (hg : goodWords ws) :
    strip (unwords ws) = unwords ws := by
  cases ws with
  | nil => rfl
  | cons w rest =>
      obtain ⟨c, t, hu, hc⟩ := unwords_head (w :: rest) hg (by simp)
      obtain ⟨l, c2, hu2, hc2⟩ := unwords_last (w :: rest) hg (by simp)
      have hls : lstrip (unwords (w :: rest)) = unwords (w :: rest) := by
        rw [hu]
        simp [lstrip, List.dropWhile_cons, hc]
      unfold strip
      rw [hls, hu2, rstrip_append_last hc2]

/-- Splitting the join of a good word list recovers the word list. -/
theorem words_unwords : ∀ ws : List (List Char), goodWords ws → words (unwords ws) = ws := by
  intro ws
  induction ws with
  | nil =>
      intro _
      have h1 : unwords ([] : List (List Char)) = [] := rfl
      rw [h1, words_nil]
  | cons w rest ih =>
      intro hg
      obtain ⟨hwne, hwc⟩ := hg w (List.mem_cons_self w rest)
      obtain ⟨c, cs, rfl⟩ := List.exists_cons_of_ne_nil hwne
      have hc : isWs c = false := hwc c (List.mem_cons_self c cs)
      have hcs : ∀ x ∈ cs, (!isWs x) = true := by
        intro x hx
        simp [hwc x (List.mem_cons_of_mem c hx)]
      cases rest with
      | nil =>
          show words (c :: cs) = [c :: cs]
          rw [words_cons]
          simp only [hc, if_false, Bool.false_eq_true]
          rw [takeWhile_of_all hcs, dropWhile_of_all hcs, words_nil]
      | cons w2 rest2 =>
          have hg2 : goodWords (w2 :: rest2) := by
            intro u hu
            exact hg u (List.mem_cons_of_mem _ hu)
          have hrec := ih hg2
          rw [unwords_cons_cons, List.cons_append, words_cons]
          simp only [hc, if_false, Bool.false_eq_true]
          rw [takeWhile_append_stop hcs (by decide), dropWhile_append_stop hcs (by decide)]
          rw [words_cons]
          simp only [if_pos (by decide : isWs ' ' = true)]
          rw [hrec]

/-- Whitespace collapsing is idempotent. -/
theorem collapseWs_idem (l : List Char) : collapseWs (collapseWs l) = collapseWs l := by
  have hg := words_good (strip l)
  show unwords (words (strip (unwords (words (strip l))))) = unwords (words (strip l))
  rw [strip_unwords _ hg, words_unwords _ hg]

/-- C8: `normalize_text` is idempotent: under the Unicode-standard facts
that NFKC normalization is idempotent and that a normalized string stays
normalized after whitespace collapsing, applying `normalize_text` twice
equals applying it once, for every string. -/
theorem normalize_text_idem (nfkc : List Char → List Char)
    (hIdem : ∀ s, nfkc (nfkc s) = nfkc s)
    (hStable : ∀ s, nfkc s = s → nfkc (collapseWs s) = collapseWs s)
    (s : List Char) :
    normalize_text nfkc (normalize_text nfkc s) = normalize_text nfkc s := by
  unfold normalize_text
  rw [hStable (nfkc s) (hIdem s), collapseWs_idem]

/-- Witness for C8 at `nfkc = id` (NFKC is the identity on this ASCII
input) and a concrete whitespace-ridden string. -/
theorem normalize_text_idem_witness :
    normalize_text id (normalize_text id ("  Mercy   General ".toList)) =
      normalize_text id ("  Mercy   General ".toList) :=
  normalize_text_idem id (fun _ => rfl) (fun _ _ => rfl) ("  Mercy   General ".toList)

/-! Characterization of the matching pass. -/

theorem scanClick_some_match {pred : List Char → Bool} :
    ∀ {labels : List (Option (List Char))} {i : Nat},
      scanClick pred labels = some i →
      ∃ t, labels[i]? = some (some t) ∧ pred (strip t) = true := by
  intro labels
  induction labels with
  | nil => intro i h; simp [scanClick] at h
  | cons o rest ih =>
      intro i h
      cases o with
      | none =>
          rw [scanClick] at h
          obtain ⟨j, hj, rfl⟩ := Option.map_eq_some'.mp h
          obtain ⟨t, ht, hp⟩ := ih hj
          exact ⟨t, by simpa using ht, hp⟩
      | some t =>
          rw [scanClick] at h
          by_cases hp : pred (strip t) = true
          · rw [if_pos hp] at h
            obtain rfl : (0 : Nat) = i := by simpa using h
            exact ⟨t, by simp, hp⟩
          · rw [if_neg hp] at h
            obtain ⟨j, hj, rfl⟩ := Option.map_eq_some'.mp h
            obtain ⟨u, hu, hpu⟩ := ih hj
            exact ⟨u, by simpa using hu, hpu⟩

theorem scanClick_some_min {pred : List Char → Bool} :
    ∀ {labels : List (Option (List Char))} {i : Nat},
      scanClick pred labels = some i →
      ∀ j < i, ∀ t, labels[j]? = some (some t) → pred (strip t) = false := by
  intro labels
  induction labels with
  | nil => intro i h; simp [scanClick] at h
  | cons o rest ih =>
      intro i h j hj t ht
      cases o with
      | none =>
          rw [scanClick] at h
          obtain ⟨k, hk, rfl⟩ := Option.map_eq_some'.mp h
          cases j with
          | zero => simp at ht
          | succ j' =>
              have hj' : j' < k := by omega
              exact ih hk j' hj' t (by simpa using ht)
      | some u =>
          rw [scanClick] at h
          by_cases hp : pred (strip u) = true
          · rw [if_pos hp] at h
            obtain rfl : (0 : Nat) = i := by simpa using h
            omega
          · rw [if_neg hp] at h
            obtain ⟨k, hk, rfl⟩ := Option.map_eq_some'.mp h
            cases j with
            | zero =>
                obtain rfl : u = t := by simpa using ht
                simpa using hp
            | succ j' =>
                have hj' : j' < k := by omega
                exact ih hk j' hj' t (by simpa using ht)

theorem scanClick_none {pred : List Char → Bool} :
    ∀ {labels : List (Option (List Char))},
      scanClick pred labels = none →
      ∀ (j : Nat) (t : List Char), labels[j]? = some (some t) → pred (strip t) = false := by
  intro labels
  induction labels with
  | nil => intro _ j t ht; simp at ht
  | cons o rest ih =>
      intro h j t ht
      cases o with
      | none =>
          rw [scanClick] at h
          have hr : scanClick pred rest = none := by simpa using h
          cases j with
          | zero => simp at ht
          | succ j' => exact ih hr j' t (by simpa using ht)
      | some u =>
          rw [scanClick] at h
          by_cases hp : pred (strip u) = true
          · rw [if_pos hp] at h
            simp at h
          · rw [if_neg hp] at h
            have hr : scanClick pred rest = none := by simpa using h
            cases j with
            | zero =>
                obtain rfl : u = t := by simpa using ht
                simpa using hp
            | succ j' => exact ih hr j' t (by simpa using ht)

theorem scanClick_isSome_of_match {pred : List Char → Bool}
    {labels : List (Option (List Char))} {i : Nat} {t : List Char}
    (ht : labels[i]? = some (some t)) (hp : pred (strip t) = true) :
    (scanClick pred labels).isSome = true := by
  cases hs : scanClick pred labels with
  | some k => rfl
  | none => exact absurd (scanClick_none hs i t ht) (by simp [hp])

/-- C2: the two-pass matching policy of `select_first_search_result`:
the clicked item is the first, in display order, whose stripped label
normalizes equal to the normalized target; when no label does, the
second pass clicks the first whose raw stripped label equals the
target; when both passes find nothing the selector raises the
no-exact-match error.  In particular, on labels
["Saint Mary Hospital", "Saint Mary" + apostrophe + "s Hospital"] with the
apostrophized name as target, index 1 is clicked, not index 0. -/
theorem selector_first_match_policy (nfkc : List Char → List Char)
    (labels : List (Option (List Char))) (hospital : List Char) :
    ((∃ (i : Nat) (t : List Char), labels[i]? = some (some t) ∧
        normMatches nfkc hospital (strip t) = true) →
      ∃ (i : Nat) (t : List Char), selectClicked nfkc labels hospital = some i ∧
        labels[i]? = some (some t) ∧ normMatches nfkc hospital (strip t) = true ∧
        ∀ (j : Nat), j < i → ∀ (u : List Char), labels[j]? = some (some u) →
          normMatches nfkc hospital (strip u) = false) ∧
    ((∀ (i : Nat) (t : List Char), labels[i]? = some (some t) →
        normMatches nfkc hospital (strip t) = false) →
      (∃ (i : Nat) (t : List Char), labels[i]? = some (some t) ∧
        rawMatches hospital (strip t) = true) →
      ∃ (i : Nat) (t : List Char), selectClicked nfkc labels hospital = some i ∧
        labels[i]? = some (some t) ∧ rawMatches hospital (strip t) = true ∧
        ∀ (j : Nat), j < i → ∀ (u : List Char), labels[j]? = some (some u) →
          rawMatches hospital (strip u) = false) ∧
    ((∀ (i : Nat) (t : List Char), labels[i]? = some (some t) →
        normMatches nfkc hospital (strip t) = false) →
      (∀ (i : Nat) (t : List Char), labels[i]? = some (some t) →
        rawMatches hospital (strip t) = false) →
      selectClicked nfkc labels hospital = none ∧
      ∀ obs : FrameObs, obs.labels = labels →
        (obs.openAttempt1 || obs.openAttempt2) = true → obs.searchOk = true →
        obs.itemsLoaded = true → labels.isEmpty = false →
        select_first_search_result nfkc obs hospital = .error .noExactMatch) ∧
    selectClicked id [some stMaryPlain, some stMaryApos] stMaryApos = some 1 := by
  refine ⟨?_, ?_, ?_, by decide⟩
  · rintro ⟨i, t, ht, hp⟩
    have hsome := scanClick_isSome_of_match ht hp
    obtain ⟨k, hk⟩ := Option.isSome_iff_exists.mp hsome
    obtain ⟨u, hu, hpu⟩ := scanClick_some_match hk
    exact ⟨k, u, by simp [selectClicked, hk], hu, hpu,
      fun j hj v hv => scanClick_some_min hk j hj v hv⟩
  · intro hnone hex
    have hn : scanClick (normMatches nfkc hospital) labels = none := by
      cases hs : scanClick (normMatches nfkc hospital) labels with
      | none => rfl
      | some i =>
          obtain ⟨t, ht, hp⟩ := scanClick_some_match hs
          exact absurd (hnone i t ht) (by simp [hp])
    obtain ⟨i, t, ht, hp⟩ := hex
    have hsome := scanClick_isSome_of_match ht hp
    obtain ⟨k, hk⟩ := Option.isSome_iff_exists.mp hsome
    obtain ⟨u, hu, hpu⟩ := scanClick_some_match hk
    exact ⟨k, u, by simp [selectClicked, hn, hk], hu, hpu,
      fun j hj v hv => scanClick_some_min hk j hj v hv⟩
  · intro h1 h2
    have hn : scanClick (normMatches nfkc hospital) labels = none := by
      cases hs : scanClick (normMatches nfkc hospital) labels with
      | none => rfl
      | some i =>
          obtain ⟨t, ht, hp⟩ := scanClick_some_match hs
          exact absurd (h1 i t ht) (by simp [hp])
    have hr : scanClick (rawMatches hospital) labels = none := by
      cases hs : scanClick (rawMatches hospital) labels with
      | none => rfl
      | some i =>
          obtain ⟨t, ht, hp⟩ := scanClick_some_match hs
          exact absurd (h2 i t ht) (by simp [hp])
    have hclick : selectClicked nfkc labels hospital = none := by
      simp [selectClicked, hn, hr]
    refine ⟨hclick, ?_⟩
    intro obs hlab hopen hsearch hitems hne
    simp [select_first_search_result, hopen, hsearch, hitems, hlab, hne, hclick]

/-- Witness for C2: on the Saint Mary labels, the first-pass clause of
the policy applies at the apostrophized target.  The normalized match
at index 1 exists, so the selector clicks a normalized match and no
earlier index matches. -/
theorem selector_first_match_policy_witness :
    ∃ (i : Nat) (t : List Char),
      selectClicked id [some stMaryPlain, some stMaryApos] stMaryApos = some i ∧
      ([some stMaryPlain, some stMaryApos])[i]? = some (some t) ∧
      normMatches id stMaryApos (strip t) = true ∧
      ∀ (j : Nat), j < i → ∀ (u : List Char),
        ([some stMaryPlain, some stMaryApos])[j]? = some (some u) →
        normMatches id stMaryApos (strip u) = false :=
  (selector_first_match_policy id [some stMaryPlain, some stMaryApos] stMaryApos).1
    ⟨1, stMaryApos, by decide, by decide⟩

theorem worker_foldl_exported_ok (nfkc : List Char → List Char) (env : WorkerEnv) :
    ∀ (subset : List (List Char)) (acc : List (List Char) × List (List Char)),
      (∀ h ∈ acc.2, select_first_search_result nfkc (env.obs h) h = .ok ()) →
      ∀ h ∈ (subset.foldl (workerStep nfkc env) acc).2,
        select_first_search_result nfkc (env.obs h) h = .ok () := by
  intro subset
  induction subset with
  | nil => intro acc hacc h hh; exact hacc h hh
  | cons x rest ih =>
      intro acc hacc
      rw [List.foldl_cons]
      apply ih
      unfold workerStep
      cases hs : select_first_search_result nfkc (env.obs x) x with
      | error e => exact hacc
      | ok u =>
          by_cases he : env.exportOk x = true
          · rw [if_pos he]
            intro h hh
            rcases List.mem_append.mp hh with hmem | hmem
            · exact hacc h hmem
            · obtain rfl : h = x := by simpa using hmem
              cases u
              exact hs
          · rw [if_neg he]
            exact hacc

/-- Every name whose PDF the worker wrote had a fully verified
selection. -/
theorem worker_task_exported_ok (nfkc : List Char → List Char) (env : WorkerEnv)
    (subset : List (List Char)) :
    ∀ h ∈ (worker_task nfkc env subset).2,
      select_first_search_result nfkc (env.obs h) h = .ok () := by
  unfold worker_task
  by_cases hs : env.sessionOk = false
  · rw [if_pos hs]
    intro h hh
    simp at hh
  · rw [if_neg hs]
    have hfold := worker_foldl_exported_ok nfkc env subset ([], [])
      (by intro h hh; simp at hh)
    by_cases hc : env.closeOk = true
    · simpa [hc] using hfold
    · simpa [hc] using hfold

/-- C1: when the dropdown restatement read back after the click does
not normalize equal to the target name, `select_first_search_result`
raises the post-selection-mismatch error, the worker never writes that
name's PDF, and in general a PDF is written for a name only when the
selector returned success (which requires the verification equality to
have held). -/
theorem select_verify_gates_export (nfkc : List Char → List Char) (env : WorkerEnv)
    (subset : List (List Char)) (hospital sel : List Char)
    (hopen : ((env.obs hospital).openAttempt1 || (env.obs hospital).openAttempt2) = true)
    (hsearch : (env.obs hospital).searchOk = true)
    (hitems : (env.obs hospital).itemsLoaded = true)
    (hne : (env.obs hospital).labels.isEmpty = false)
    (hclick : (selectClicked nfkc (env.obs hospital).labels hospital).isSome = true)
    (hread : (env.obs hospital).closedDisplay = some sel)
    (hmismatch : normalize_text nfkc (strip sel) ≠ normalize_text nfkc hospital) :
    select_first_search_result nfkc (env.obs hospital) hospital =
      .error .postSelectionMismatch ∧
    hospital ∉ (worker_task nfkc env subset).2 ∧
    ∀ h ∈ (worker_task nfkc env subset).2,
      select_first_search_result nfkc (env.obs h) h = .ok () := by
  obtain ⟨i, hi⟩ := Option.isSome_iff_exists.mp hclick
  have herr : select_first_search_result nfkc (env.obs hospital) hospital =
      .error .postSelectionMismatch := by
    rw [select_first_search_result, hopen, hsearch, hitems, hne, hi, hread]
    simp [hmismatch]
  refine ⟨herr, ?_, worker_task_exported_ok nfkc env subset⟩
  intro hmem
  have hok := worker_task_exported_ok nfkc env subset hospital hmem
  rw [herr] at hok
  exact Except.noConfusion hok

/-- Witness for C1: concrete observations where the restatement check
fails; the selector reports the mismatch and no PDF is written. -/
theorem select_verify_gates_export_witness :
    select_first_search_result id (envW.obs genHosp) genHosp =
      .error .postSelectionMismatch ∧
    genHosp ∉ (worker_task id envW [genHosp]).2 ∧
    ∀ h ∈ (worker_task id envW [genHosp]).2,
      select_first_search_result id (envW.obs h) h = .ok () :=
  select_verify_gates_export id envW [genHosp] genHosp otherHosp (by decide) (by decide)
    (by decide) (by decide) (by decide) (by decide) (by decide)

theorem sanitize_of_clean {l : List Char} (h : ∀ c ∈ l, illegalChar c = false) :
    sanitizeName l = l := by
  induction l with
  | nil => rfl
  | cons a t ih =>
      have ha : illegalChar a = false := h a (List.mem_cons_self a t)
      have ht := ih (fun c hc => h c (List.mem_cons_of_mem a hc))
      simp [sanitizeName, ha] at ht ⊢
      exact ht

/-- C5 counterexample: two distinct facility names drawn from the
substituted illegal character set, "A/B" and "A?B", produce the same
sanitized filename under the same run identifier, refuting injectivity
over inputs that include the illegal set. -/
theorem filename_collision_cex :
    ("A/B".toList ≠ "A?B".toList) ∧
    export_pdf_name ("20250723_153139".toList) ("A/B".toList) =
      export_pdf_name ("20250723_153139".toList) ("A?B".toList) := by
  decide

/-- C5 amended: within one run identifier, the deterministic filename
construction is injective over facility names that contain none of the
characters the sanitization substitutes (on such names the substitution
is the identity). -/
theorem filename_injective_on_clean (ts h1 h2 : List Char)
    (hc1 : ∀ c ∈ h1, illegalChar c = false)
    (hc2 : ∀ c ∈ h2, illegalChar c = false)
    (heq : export_pdf_name ts h1 = export_pdf_name ts h2) : h1 = h2 := by
  unfold export_pdf_name at heq
  rw [sanitize_of_clean hc1, sanitize_of_clean hc2] at heq
  have e1 := List.append_cancel_right heq
  exact List.append_cancel_left e1

/-- Witness for C5 amended: the hypotheses hold at a concrete clean
name and the theorem applies. -/
theorem filename_injective_on_clean_witness : genHosp = genHosp :=
  filename_injective_on_clean ("20250723_153139".toList) genHosp genHosp
    (by decide) (by decide) rfl

/-- C6: the export step and the reconciliation check do not compute the
same filename.  At hospital "A" and run timestamp "20250723_153139" the
export writes `SB_Report_20250723_A.pdf` (date before name, time half
dropped) while the reconciliation expects
`SB_Report_A_20250723_153139.pdf` (name before full timestamp), so the
recomputed name never matches the written one. -/
theorem export_vs_reconcile_mismatch :
    export_pdf_name ("20250723_153139".toList) ("A".toList) =
      "SB_Report_20250723_A.pdf".toList ∧
    expected_pdf_name ("20250723_153139".toList) ("A".toList) =
      "SB_Report_A_20250723_153139.pdf".toList ∧
    export_pdf_name ("20250723_153139".toList) ("A".toList) ≠
      expected_pdf_name ("20250723_153139".toList) ("A".toList) := by
  decide

theorem chunkedF_nil {α : Type} (k fuel : Nat) : chunkedF k fuel ([] : List α) = [] := by
  cases fuel <;> rfl

theorem chunkedF_congr {α : Type} (k : Nat) (hk : 1 ≤ k) :
    ∀ {f1 : Nat} {l : List α} {f2 : Nat},
      l.length ≤ f1 → l.length ≤ f2 → chunkedF k f1 l = chunkedF k f2 l := by
  intro f1
  induction f1 with
  | zero =>
      intro l f2 h1 _
      have hl : l = [] := List.length_eq_zero.mp (Nat.le_zero.mp h1)
      subst hl
      rw [chunkedF_nil, chunkedF_nil]
  | succ n ih =>
      intro l f2 h1 h2
      cases l with
      | nil => rw [chunkedF_nil, chunkedF_nil]
      | cons c cs =>
          cases f2 with
          | zero => simp at h2
          | succ m =>
              show (c :: cs).take k :: chunkedF k n ((c :: cs).drop k) =
                (c :: cs).take k :: chunkedF k m ((c :: cs).drop k)
              have hd : ((c :: cs).drop k).length ≤ cs.length := by
                rw [List.length_drop, List.length_cons]
                omega
              have hn : cs.length ≤ n := by simpa using h1
              have hm : cs.length ≤ m := by simpa using h2
              rw [ih (le_trans hd hn) (le_trans hd hm)]

theorem chunked_cons {α : Type} (k : Nat) (hk : 1 ≤ k) (c : α) (cs : List α) :
    chunked k (c :: cs) = (c :: cs).take k :: chunked k ((c :: cs).drop k) := by
  show chunkedF k (cs.length + 1) (c :: cs) = _
  have hd : ((c :: cs).drop k).length ≤ cs.length := by
    rw [List.length_drop, List.length_cons]
    omega
  show (c :: cs).take k :: chunkedF k cs.length ((c :: cs).drop k) = _
  rw [chunkedF_congr k hk hd le_rfl]
  rfl

theorem chunked_join {α : Type} (k : Nat) (hk : 1 ≤ k) :
    ∀ l : List α, (chunked k l).flatten = l := by
  have H : ∀ (n : Nat) (l : List α), l.length ≤ n → (chunked k l).flatten = l := by
    intro n
    induction n with
    | zero =>
        intro l hl
        have : l = [] := List.length_eq_zero.mp (Nat.le_zero.mp hl)
        subst this
        rfl
    | succ n ih =>
        intro l hl
        cases l with
        | nil => rfl
        | cons c cs =>
            rw [chunked_cons k hk, List.flatten_cons]
            have hd : ((c :: cs).drop k).length ≤ cs.length := by
              rw [List.length_drop, List.length_cons]
              omega
            rw [ih _ (le_trans hd (by simpa using hl))]
            exact List.take_append_drop k (c :: cs)
  intro l
  exact H l.length l le_rfl

theorem chunked_sizes {α : Type} (k : Nat) (hk : 1 ≤ k) :
    ∀ l : List α, ∀ c ∈ chunked k l, c.length ≤ k := by
  have H : ∀ (n : Nat) (l : List α), l.length ≤ n → ∀ c ∈ chunked k l, c.length ≤ k := by
    intro n
    induction n with
    | zero =>
        intro l hl c hc
        have : l = [] := List.length_eq_zero.mp (Nat.le_zero.mp hl)
        subst this
        simp [chunked, chunkedF_nil] at hc
    | succ n ih =>
        intro l hl c hc
        cases l with
        | nil => simp [chunked, chunkedF_nil] at hc
        | cons x xs =>
            rw [chunked_cons k hk] at hc
            rcases List.mem_cons.mp hc with h | h
            · subst h
              rw [List.length_take]
              omega
            · have hd : ((x :: xs).drop k).length ≤ xs.length := by
                rw [List.length_drop, List.length_cons]
                omega
              exact ih _ (le_trans hd (by simpa using hl)) c h
  intro l
  exact H l.length l le_rfl

/-- C7: for a worker count `W` between 1 and the list length, the
ceiling-division chunking of line 270 yields contiguous slices whose
concatenation is exactly the input list (so the subsets are a partition
of the input as a multiset, pairwise disjoint as position ranges, order
preserved) and each slice has at most `ceil(n/W)` elements; the
assignment is a deterministic function of the list and `W`. -/
theorem chunking_is_partition (l : List (List Char)) (W : Nat)
    (hW1 : 1 ≤ W) (hW2 : W ≤ l.length) :
    (chunked (splitSize l.length W) l).flatten = l ∧
    ∀ c ∈ chunked (splitSize l.length W) l, c.length ≤ splitSize l.length W := by
  have hk : 1 ≤ splitSize l.length W := by
    unfold splitSize
    rw [Nat.one_le_div_iff (by omega)]
    omega
  exact ⟨chunked_join _ hk l, chunked_sizes _ hk l⟩

/-- Witness for C7 at the spec's example: three names and two workers
give slices of width 2; the conclusion holds and the slices are
`[[A, B], [C]]`. -/
theorem chunking_is_partition_witness :
    ((chunked (splitSize threeHospitals.length 2) threeHospitals).flatten = threeHospitals ∧
      ∀ c ∈ chunked (splitSize threeHospitals.length 2) threeHospitals,
        c.length ≤ splitSize threeHospitals.length 2) ∧
    chunked (splitSize threeHospitals.length 2) threeHospitals =
      [["A Hospital".toList, "B Hospital".toList], ["C Hospital".toList]] :=
  ⟨chunking_is_partition threeHospitals 2 (by decide) (by decide), by decide⟩

/-- C4 counterexample: when `browser.close()` raises after the loop
(line 220 sits inside the outer try of lines 182-223), the outer
handler returns the entire subset as failed even though the name's PDF
was already written, so the name is counted both as a success on disk
and as a member of the returned failed list — refuting the claim that
every name ends in exactly one of the two outcomes. -/
theorem worker_double_count_cex :
    (worker_task id envCloseFail [genHosp]).1 = [genHosp] ∧
    (worker_task id envCloseFail [genHosp]).2 = [genHosp] ∧
    ¬ ((worker_task id envCloseFail [genHosp]).1.count genHosp +
        (worker_task id envCloseFail [genHosp]).2.count genHosp =
        ([genHosp] : List (List Char)).count genHosp) := by
  decide

theorem worker_foldl_count (nfkc : List Char → List Char) (env : WorkerEnv) :
    ∀ (subset : List (List Char)) (acc : List (List Char) × List (List Char))
      (h : List Char),
      (subset.foldl (workerStep nfkc env) acc).1.count h +
        (subset.foldl (workerStep nfkc env) acc).2.count h =
        acc.1.count h + acc.2.count h + subset.count h := by
  intro subset
  induction subset with
  | nil => intro acc h; simp
  | cons x rest ih =>
      intro acc h
      rw [List.foldl_cons, ih (workerStep nfkc env acc x) h]
      have hstep : (workerStep nfkc env acc x).1.count h +
          (workerStep nfkc env acc x).2.count h =
          acc.1.count h + acc.2.count h + ([x] : List (List Char)).count h := by
        unfold workerStep
        cases select_first_search_result nfkc (env.obs x) x with
        | error e =>
            simp only [List.count_append]
            omega
        | ok u =>
            by_cases he : env.exportOk x = true
            · rw [if_pos he]
              simp only [List.count_append]
              omega
            · rw [if_neg he]
              simp only [List.count_append]
              omega
      rw [hstep]
      have hx : ([x] : List (List Char)).count h + rest.count h = (x :: rest).count h := by
        simp only [List.count_cons, List.count_nil]
        omega
      omega

/-- C4 amended: the worker's return value accounts for every assigned
name, provided the browser teardown after the loop does not raise: when
session acquisition fails the whole subset is returned failed with
nothing written, and otherwise (with teardown succeeding) every
occurrence of a name in the subset ends in exactly one of
{PDF written, membership in the returned failed list} — the two
multiplicities sum to the subset multiplicity, so nothing is dropped or
double-counted.  (When teardown raises, the whole subset is returned
failed on top of the PDFs already written; see the counterexample.) -/
theorem worker_accounting (nfkc : List Char → List Char) (env : WorkerEnv)
    (subset : List (List Char)) :
    (env.sessionOk = false → worker_task nfkc env subset = (subset, [])) ∧
    (env.sessionOk = true → env.closeOk = true →
      ∀ h : List Char,
        (worker_task nfkc env subset).1.count h +
          (worker_task nfkc env subset).2.count h = subset.count h) := by
  constructor
  · intro hs
    simp [worker_task, hs]
  · intro hs hc h
    rw [worker_task]
    rw [hs]
    simp only [Bool.true_eq_false, if_false, hc, if_true]
    rw [worker_foldl_count nfkc env subset ([], []) h]
    simp

/-- Witness for C4 amended at a concrete working environment and a
one-name subset. -/
theorem worker_accounting_witness :
    (worker_task id envW [genHosp]).1.count genHosp +
      (worker_task id envW [genHosp]).2.count genHosp =
      ([genHosp] : List (List Char)).count genHosp :=
  (worker_accounting id envW [genHosp]).2 (by decide) (by decide) genHosp

/-- C3 counterexample: the retry loop is `while True` with no maximum
pass count.  With one name that fails on every pass, after three full
passes the loop is still live at attempt 4 with that name as input, so
pass 4 is attempted — refuting the claim that after a configured
maximum of 3 passes the orchestrator stops retrying. -/
theorem retry_unbounded_cex :
    (orchRun tsW alwaysFail [genHosp] 3).stopped = false ∧
    (orchRun tsW alwaysFail [genHosp] 3).attempt = 4 ∧
    (orchRun tsW alwaysFail [genHosp] 3).input = [genHosp] := by
  decide

/-- C3 amended: the retry loop bounds nothing: whenever an unfinished
pass over a nonempty input yields a nonempty failed list, the next pass
is attempted with the failed list as input and the attempt counter
incremented — for every pass number, without any maximum — and the
loop stops exactly when a pass yields zero failures (full success) or
the input list is empty. -/
theorem retry_loop_passes (ts : List Char)
    (runFail : Nat → List (List Char) → List (List Char))
    (base : List (List Char)) (n : Nat) :
    ((orchRun ts runFail base n).stopped = false →
      (orchRun ts runFail base n).input ≠ [] →
      runFail (orchRun ts runFail base n).attempt (orchRun ts runFail base n).input ≠ [] →
      (orchRun ts runFail base (n + 1)).stopped = false ∧
      (orchRun ts runFail base (n + 1)).attempt = (orchRun ts runFail base n).attempt + 1 ∧
      (orchRun ts runFail base (n + 1)).input =
        runFail (orchRun ts runFail base n).attempt (orchRun ts runFail base n).input) ∧
    ((orchRun ts runFail base n).stopped = false →
      (orchRun ts runFail base n).input ≠ [] →
      runFail (orchRun ts runFail base n).attempt (orchRun ts runFail base n).input = [] →
      (orchRun ts runFail base (n + 1)).stopped = true) ∧
    ((orchRun ts runFail base n).stopped = false →
      (orchRun ts runFail base n).input = [] →
      (orchRun ts runFail base (n + 1)).stopped = true) := by
  set s := orchRun ts runFail base n with hs
  have hstep : orchRun ts runFail base (n + 1) = orchStep ts runFail s := rfl
  refine ⟨?_, ?_, ?_⟩
  · intro h1 h2 h3
    rw [hstep]
    rw [orchStep]
    rw [h1]
    have h2b : s.input.isEmpty = false := by
      cases hi : s.input with
      | nil => exact absurd hi h2
      | cons a l => rfl
    have h3b : (runFail s.attempt s.input).isEmpty = false := by
      cases hi : runFail s.attempt s.input with
      | nil => exact absurd hi h3
      | cons a l => rfl
    rw [if_neg (by simp), if_neg (by simp [h2b])]
    by_cases ha : s.attempt = 1
    · rw [ha] at h3
      simp [ha, h3, h1]
    · simp [ha, h3, h1]
  · intro h1 h2 h3
    rw [hstep, orchStep, h1]
    have h2b : s.input.isEmpty = false := by
      cases hi : s.input with
      | nil => exact absurd hi h2
      | cons a l => rfl
    rw [if_neg (by simp), if_neg (by simp [h2b])]
    by_cases ha : s.attempt = 1
    · rw [ha] at h3
      simp [ha, h3, h1]
    · simp [ha, h3, h1]
  · intro h1 h2
    rw [hstep, orchStep, h1]
    have h2b : s.input.isEmpty = true := by rw [h2]; rfl
    rw [if_neg (by simp), if_pos (by simp [h2b])]

/-- Witness for C3 amended at a concrete always-failing run, first
iteration. -/
theorem retry_loop_passes_witness :
    (orchRun tsW alwaysFail [genHosp] 1).stopped = false ∧
    (orchRun tsW alwaysFail [genHosp] 1).attempt =
      (orchRun tsW alwaysFail [genHosp] 0).attempt + 1 ∧
    (orchRun tsW alwaysFail [genHosp] 1).input =
      alwaysFail (orchRun tsW alwaysFail [genHosp] 0).attempt
        (orchRun tsW alwaysFail [genHosp] 0).input :=
  (retry_loop_passes tsW alwaysFail [genHosp] 0).1 (by decide) (by decide) (by decide)

/-- C10: the run timestamp and the output directory are initialized
only on attempt 1 (lines 262-266): provided the base list is nonempty,
after every number of loop iterations from the first one on, the run
identifier is still the one captured on pass 1 and the directory has
been created exactly once — every retry pass reuses the same output
directory and run identifier. -/
theorem run_context_initialized_once (ts : List Char)
    (runFail : Nat → List (List Char) → List (List Char))
    (base : List (List Char)) (hbase : base ≠ []) (n : Nat) (hn : 1 ≤ n) :
    (orchRun ts runFail base n).runId = some ts ∧
    (orchRun ts runFail base n).dirCreated = 1 := by
  have hbe : base.isEmpty = false := by
    cases hb : base with
    | nil => exact absurd hb hbase
    | cons a l => rfl
  have hInv : ∀ m, 1 ≤ m → (orchRun ts runFail base m).runId = some ts ∧
      (orchRun ts runFail base m).dirCreated = 1 ∧
      ((orchRun ts runFail base m).stopped = true ∨
        2 ≤ (orchRun ts runFail base m).attempt) := by
    intro m hm
    induction m, hm using Nat.le_induction with
    | base =>
        have hstep : orchRun ts runFail base 1 = orchStep ts runFail (orchInit base) := rfl
        rw [hstep]
        by_cases hf : (runFail 1 base).isEmpty = true
        · simp [orchStep, orchInit, hbe, hf]
        · simp [orchStep, orchInit, hbe, hf]
    | succ m hm ih =>
        obtain ⟨hr, hd, hso⟩ := ih
        have hstep : orchRun ts runFail base (m + 1) =
            orchStep ts runFail (orchRun ts runFail base m) := rfl
        rw [hstep]
        by_cases h1 : (orchRun ts runFail base m).stopped = true
        · rw [orchStep, if_pos h1]
          exact ⟨hr, hd, Or.inl h1⟩
        · have h2 : 2 ≤ (orchRun ts runFail base m).attempt := hso.resolve_left h1
          have hna : (orchRun ts runFail base m).attempt ≠ 1 := by omega
          by_cases hie : (orchRun ts runFail base m).input.isEmpty = true
          · rw [orchStep, if_neg h1, if_pos hie]
            simp [hr, hd]
          · by_cases hf :
                (runFail (orchRun ts runFail base m).attempt
                  (orchRun ts runFail base m).input).isEmpty = true
            · rw [orchStep, if_neg h1, if_neg hie]
              simp [hna, hf, hr, hd]
            · rw [orchStep, if_neg h1, if_neg hie]
              simp [hna, hf, hr, hd]
              omega
  exact ⟨(hInv n hn).1, (hInv n hn).2.1⟩

/-- Witness for C10 at the concrete always-failing run: after the first
iteration the run id is captured and the directory was created once. -/
theorem run_context_initialized_once_witness :
    (orchRun tsW alwaysFail [genHosp] 1).runId = some tsW ∧
    (orchRun tsW alwaysFail [genHosp] 1).dirCreated = 1 :=
  run_context_initialized_once tsW alwaysFail [genHosp] (by decide) 1 (by decide)

/-- C9 counterexample: the reconciliation script is not write-free: on
an empty output directory with one hospital expected, the missing list
is nonempty and the script writes `missing_pdfs.csv` into the
directory, so the directory after the run differs from the directory
before it. -/
theorem validate_writes_cex :
    (runValidate [] tsW [genHosp]).2 = [missingCsvName] ∧
    (runValidate [] tsW [genHosp]).2 ≠ ([] : List (List Char)) := by
  decide

/-- C9 amended: the reconciliation computation is a pure function of
the directory listing and the name list (so two runs over an unchanged
directory give identical missing output), and the script's only write
is the missing-list CSV — not a `.pdf` file — so even rerunning it on
the directory it leaves behind yields the identical missing-name
output. -/
theorem validate_rerun_stable (dir : List (List Char)) (runstamp : List Char)
    (hospitals : List (List Char)) :
    missing_pdfs (runValidate dir runstamp hospitals).2 runstamp hospitals =
      missing_pdfs dir runstamp hospitals ∧
    ((runValidate dir runstamp hospitals).2 = dir ∨
      (runValidate dir runstamp hospitals).2 = dir ++ [missingCsvName]) := by
  have hAct : actual_pdf_files (dir ++ [missingCsvName]) = actual_pdf_files dir := by
    unfold actual_pdf_files
    rw [List.filter_append]
    have hcsv : List.filter (fun f => ".pdf".toList.isSuffixOf (f.map Char.toLower))
        [missingCsvName] = [] := by decide
    rw [hcsv, List.append_nil]
  have hsame : missing_pdfs (dir ++ [missingCsvName]) runstamp hospitals =
      missing_pdfs dir runstamp hospitals := by
    unfold missing_pdfs
    simp only [hAct]
  unfold runValidate
  by_cases hm : (missing_pdfs dir runstamp hospitals).isEmpty = true
  · simp [hm]
  · simp [hm, hsame]

end Dashboards
